import Mathlib

/-!
Verification of the streak/window aggregation core of the `rust-streak`
badge generator (`src/main.rs`).

Modelling conventions:
* A calendar date (`chrono::NaiveDate`) is modelled as an `Int` counting
  days from an arbitrary epoch; `d - Duration::days(1)` becomes `d - 1`,
  and two dates are consecutive iff they differ by exactly `1`.
* A daily contribution count (`u32`) is modelled as a `Nat`.
* The `HashMap<NaiveDate, u32>` `daily_contributions` is modelled as an
  association list `List (Int × Nat)` with insert-replace semantics
  (`build` / `insertAL`); `HashMap::get(..).cloned().unwrap_or(0)` is
  `lookup`, which returns `0` for absent keys.
* The `while` loop computing `current_streak` is modelled with a fuel
  parameter; fuel `idx.length + 1` is proved sufficient because walking
  backwards visits pairwise-distinct dates that all carry positive counts
  stored in the finite index.
* Sums performed on `u32` are additionally modelled with Rust's
  overflow-checked addition (`checkedAdd`/`checkedSum`), which signals
  overflow (returns `none`, the model of a panic) instead of wrapping.
-/

namespace StreakWidget

/-- Model of `daily_contributions.get(&d).cloned().unwrap_or(0)`:
the stored count for date `d`, or `0` when `d` is absent. -/
def lookup (idx : List (Int × Nat)) (d : Int) : Nat :=
  match idx.find? (fun p => p.1 == d) with
  | some p => p.2
  | none => 0

/-- Model of `HashMap::insert`: replace the value stored at an existing
key, otherwise append a fresh entry. -/
def insertAL : List (Int × Nat) → Int → Nat → List (Int × Nat)
  | [], d, c => [(d, c)]
  | (d', c') :: rest, d, c =>
      if d' = d then (d, c) :: rest else (d', c') :: insertAL rest d c

/-- Model of the index-construction loop (`main.rs` lines 184-190):
insert every `(date, count)` pair of the input sequence, in order, into
an initially empty map. -/
def build (entries : List (Int × Nat)) : List (Int × Nat) :=
  entries.foldl (fun m p => insertAL m p.1 p.2) []

/-- Spec-side reference function for §4.1's last-write-wins rule: the
count of the last occurrence of `d` in input order, `0` when absent.
Used only to be compared with `lookup ∘ build`. -/
def lastWriteWins (entries : List (Int × Nat)) (d : Int) : Nat :=
  (entries.foldl (fun acc p => if p.1 = d then some p.2 else acc) none).getD 0

/-- Fuelled model of the `while` loop (`main.rs` lines 193-198):
`while lookup d > 0 { current_streak += 1; d -= 1 day }`. -/
def currentStreakAux (idx : List (Int × Nat)) : Nat → Int → Nat
  | 0, _ => 0
  | fuel + 1, d =>
      if 0 < lookup idx d then currentStreakAux idx fuel (d - 1) + 1 else 0

/-- `current_streak`: the loop run with provably sufficient fuel
(the walk can take at most `idx.length` steps, one per stored
positive-count date). -/
def currentStreak (idx : List (Int × Nat)) (today : Int) : Nat :=
  currentStreakAux idx (idx.length + 1) today

/-- Model of `main.rs` lines 203-206: the dates carrying a positive
count (`filter_map(|(d, c)| if *c > 0 { Some(*d) } else { None })`). -/
def positives (idx : List (Int × Nat)) : List Int :=
  idx.filterMap (fun p => if 0 < p.2 then some p.1 else none)

/-- Model of `days.sort()` (`main.rs` line 207). -/
def sortedDays (idx : List (Int × Nat)) : List Int :=
  List.insertionSort (· ≤ ·) (positives idx)

/-- Model of the longest-streak scan (`main.rs` lines 209-222), carrying
the loop state `(longest, streak, prev)` explicitly. -/
def scanGo : Nat → Nat → Option Int → List Int → Nat
  | longest, _, _, [] => longest
  | longest, streak, prev, day :: rest =>
      let streak' :=
        match prev with
        | some p => if day = p + 1 then streak + 1 else 1
        | none => 1
      scanGo (max longest streak') streak' (some day) rest

/-- `longest`: scan the ascending positive-count dates once. -/
def longestStreak (idx : List (Int × Nat)) : Nat :=
  scanGo 0 0 none (sortedDays idx)

/-- Model of `(count.min(5) * 6) + 4` (`main.rs` line 238). -/
def barHeight (count : Nat) : Nat :=
  min count 5 * 6 + 4

/-- One iteration of the 30-day window loop (`main.rs` lines 229-245),
restricted to its numeric state: active-day counter, commit sum, and the
accumulated bar heights (oldest first). -/
def windowStep (idx : List (Int × Nat)) (today : Int)
    (st : Nat × Nat × List Nat) (i : Nat) : Nat × Nat × List Nat :=
  let count := lookup idx (today - (i : Int))
  ( if 0 < count then st.1 + 1 else st.1
  , if 0 < count then st.2.1 + count else st.2.1
  , st.2.2 ++ [barHeight count] )

/-- The window loop `for i in (0..30).rev() { .. }`. -/
def windowLoop (idx : List (Int × Nat)) (today : Int) : Nat × Nat × List Nat :=
  ((List.range 30).reverse).foldl (windowStep idx today) (0, 0, [])

/-- `active_30`. -/
def active30 (idx : List (Int × Nat)) (today : Int) : Nat :=
  (windowLoop idx today).1

/-- `commits_30`. -/
def commits30 (idx : List (Int × Nat)) (today : Int) : Nat :=
  (windowLoop idx today).2.1

/-- The 30 bar heights, oldest day first. -/
def barHeights (idx : List (Int × Nat)) (today : Int) : List Nat :=
  (windowLoop idx today).2.2

/-- The 30 calendar dates the window loop visits, in visit order
(`day = today - i` for `i = 29, 28, …, 0`). -/
def windowDays (today : Int) : List Int :=
  ((List.range 30).reverse).map (fun i => today - (i : Int))

/-- The looked-up counts of the window days, oldest first. -/
def windowCounts (idx : List (Int × Nat)) (today : Int) : List Nat :=
  (windowDays today).map (fun d => lookup idx d)

/-- Rust `u32` addition under the overflow check that `+` carries in the
default (dev) profile: the exact sum when it fits in 32 bits, otherwise
a signalled overflow (`none`, modelling the panic) — never a wrapped
value. -/
def checkedAdd (a b : Nat) : Option Nat :=
  if a + b < 2 ^ 32 then some (a + b) else none

/-- A left-to-right sum of `u32` values using `checkedAdd`, modelling
`iter().sum::<u32>()` and the repeated `commits_30 += count`. -/
def checkedSum (l : List Nat) : Option Nat :=
  l.foldl (fun acc c => acc.bind (fun a => checkedAdd a c)) (some 0)

/-- A run of `n` consecutive dates starting at `s`, all present in the
list `D`. -/
def isRunD (D : List Int) (s : Int) (n : Nat) : Prop :=
  ∀ i : Nat, i < n → s + (i : Int) ∈ D

/-- Termination measure for the backward walk: the number of stored
entries with a positive count and a date at most `d`. -/
def posEntries (idx : List (Int × Nat)) (d : Int) : Nat :=
  (idx.filter (fun p => decide (0 < p.2) && decide (p.1 ≤ d))).length

/-! ### Basic `lookup` lemmas -/

theorem lookup_nil (d : Int) : lookup [] d = 0 := rfl

theorem lookup_cons (d' : Int) (c : Nat) (t : List (Int × Nat)) (d : Int) :
    lookup ((d', c) :: t) d = if d' = d then c else lookup t d := by
  by_cases h : d' = d
  · simp [lookup, List.find?_cons_of_pos, h]
  · have hb : (((d', c) : Int × Nat).1 == d) = false := by
      simpa using h
    simp [lookup, List.find?_cons_of_neg, hb, h]

theorem lookup_pos_exists {idx : List (Int × Nat)} {d : Int}
    (h : 0 < lookup idx d) : ∃ c, (d, c) ∈ idx ∧ 0 < c := by
  induction idx with
  | nil => simp [lookup_nil] at h
  | cons p t ih =>
      obtain ⟨d', c⟩ := p
      rw [lookup_cons] at h
      by_cases hd : d' = d
      · subst hd
        simp only [if_pos rfl] at h
        exact ⟨c, List.mem_cons_self _ _, h⟩
      · rw [if_neg hd] at h
        obtain ⟨c', hm, hc⟩ := ih h
        exact ⟨c', List.mem_cons_of_mem _ hm, hc⟩

/-! ### Termination of the backward walk -/

theorem length_filter_mono {α : Type} (P Q : α → Bool)
    (himp : ∀ y, P y = true → Q y = true) :
    ∀ l : List α, (l.filter P).length ≤ (l.filter Q).length := by
  intro l
  induction l with
  | nil => simp
  | cons a t ih =>
      by_cases hP : P a = true
      · have hQ := himp a hP
        simp [List.filter_cons, hP, hQ]
        omega
      · have hP' : P a = false := by simpa using hP
        by_cases hQ : Q a = true
        · simp [List.filter_cons, hP', hQ]
          omega
        · have hQ' : Q a = false := by simpa using hQ
          simpa [List.filter_cons, hP', hQ'] using ih

theorem length_filter_lt {α : Type} (P Q : α → Bool)
    (himp : ∀ y, P y = true → Q y = true) :
    ∀ (l : List α) (x : α), x ∈ l → Q x = true → P x = false →
      (l.filter P).length < (l.filter Q).length := by
  intro l
  induction l with
  | nil => intro x hx; simp at hx
  | cons a t ih =>
      intro x hx hQx hPx
      rcases List.mem_cons.mp hx with hxa | hxt
      · subst hxa
        have hle := length_filter_mono P Q himp t
        simp [List.filter_cons, hPx, hQx]
        omega
      · by_cases hPa : P a = true
        · have hQa := himp a hPa
          have := ih x hxt hQx hPx
          simp [List.filter_cons, hPa, hQa]
          omega
        · have hPa' : P a = false := by simpa using hPa
          have := ih x hxt hQx hPx
          by_cases hQa : Q a = true
          · simp [List.filter_cons, hPa', hQa]
            omega
          · have hQa' : Q a = false := by simpa using hQa
            simpa [List.filter_cons, hPa', hQa'] using this

theorem posEntries_lt {idx : List (Int × Nat)} {d : Int}
    (h : 0 < lookup idx d) : posEntries idx (d - 1) < posEntries idx d := by
  obtain ⟨c, hm, hc⟩ := lookup_pos_exists h
  refine length_filter_lt _ _ ?_ idx (d, c) hm ?_ ?_
  · intro y hy
    simp only [Bool.and_eq_true, decide_eq_true_eq] at hy ⊢
    exact ⟨hy.1, by omega⟩
  · simp only [Bool.and_eq_true, decide_eq_true_eq]
    exact ⟨hc, le_refl d⟩
  · simp only [Bool.and_eq_false_iff, decide_eq_false_iff_not, not_le, not_lt]
    right
    omega

theorem posEntries_le_length (idx : List (Int × Nat)) (d : Int) :
    posEntries idx d ≤ idx.length :=
  List.length_filter_le _ idx

/-- With enough fuel, the fuelled loop satisfies the backward-walk
characterisation: every visited day up to the result has a positive
count, and the day just past the result has count `0`. -/
theorem currentStreakAux_spec (idx : List (Int × Nat)) :
    ∀ (fuel : Nat) (d : Int), posEntries idx d < fuel →
      (∀ i : Nat, i < currentStreakAux idx fuel d →
        0 < lookup idx (d - (i : Int))) ∧
      lookup idx (d - (currentStreakAux idx fuel d : Int)) = 0 := by
  intro fuel
  induction fuel with
  | zero => intro d hd; omega
  | succ n ih =>
      intro d hd
      by_cases h : 0 < lookup idx d
      · have hmu : posEntries idx (d - 1) < n := by
          have := posEntries_lt h
          omega
        obtain ⟨ih1, ih2⟩ := ih (d - 1) hmu
        rw [currentStreakAux, if_pos h]
        refine ⟨?_, ?_⟩
        · intro i hi
          match i with
          | 0 => simpa using h
          | j + 1 =>
              have hj : j < currentStreakAux idx n (d - 1) := by omega
              have := ih1 j hj
              have harith : d - ((j : Int) + 1) = d - 1 - (j : Int) := by omega
              rw [show ((j + 1 : Nat) : Int) = (j : Int) + 1 by push_cast; ring]
              rw [harith]
              exact this
        · have harith :
              d - ((currentStreakAux idx n (d - 1) + 1 : Nat) : Int) =
              d - 1 - ((currentStreakAux idx n (d - 1) : Nat) : Int) := by
            push_cast
            ring
          rw [harith]
          exact ih2
      · rw [currentStreakAux, if_neg h]
        refine ⟨by omega, ?_⟩
        simp only [Nat.cast_zero, sub_zero]
        omega

/-- The characterising pair of properties determines the streak value
uniquely. -/
theorem streak_unique (idx : List (Int × Nat)) (d : Int) (n m : Nat)
    (hn1 : ∀ i : Nat, i < n → 0 < lookup idx (d - (i : Int)))
    (hn2 : lookup idx (d - (n : Int)) = 0)
    (hm1 : ∀ i : Nat, i < m → 0 < lookup idx (d - (i : Int)))
    (hm2 : lookup idx (d - (m : Int)) = 0) : n = m := by
  rcases lt_trichotomy n m with hlt | heq | hgt
  · have := hm1 n hlt
    omega
  · exact heq
  · have := hn1 m hgt
    omega

theorem currentStreakAux_le (idx : List (Int × Nat)) :
    ∀ (fuel : Nat) (d : Int), currentStreakAux idx fuel d ≤ posEntries idx d := by
  intro fuel
  induction fuel with
  | zero => intro d; simp [currentStreakAux]
  | succ n ih =>
      intro d
      by_cases h : 0 < lookup idx d
      · rw [currentStreakAux, if_pos h]
        have h1 := ih (d - 1)
        have h2 := posEntries_lt h
        omega
      · rw [currentStreakAux, if_neg h]
        omega

/-- The characterisation for the actual `currentStreak` (fuel
`idx.length + 1` is sufficient). -/
theorem currentStreak_spec_aux (idx : List (Int × Nat)) (today : Int) :
    (∀ i : Nat, i < currentStreak idx today →
      0 < lookup idx (today - (i : Int))) ∧
    lookup idx (today - (currentStreak idx today : Int)) = 0 := by
  have hfuel : posEntries idx today < idx.length + 1 := by
    have := posEntries_le_length idx today
    omega
  exact currentStreakAux_spec idx (idx.length + 1) today hfuel

theorem currentStreak_le_length (idx : List (Int × Nat)) (today : Int) :
    currentStreak idx today ≤ idx.length := by
  have h1 := currentStreakAux_le idx (idx.length + 1) today
  have h2 := posEntries_le_length idx today
  simpa [currentStreak] using le_trans h1 h2

/-- Any fuel beyond `idx.length` produces the same value: the walk
stabilises before the fuel runs out. -/
theorem currentStreakAux_fuel_indep (idx : List (Int × Nat)) (d : Int)
    (fuel : Nat) (h : idx.length < fuel) :
    currentStreakAux idx fuel d = currentStreak idx d := by
  have hmu : posEntries idx d < fuel := by
    have := posEntries_le_length idx d
    omega
  obtain ⟨h1, h2⟩ := currentStreakAux_spec idx fuel d hmu
  obtain ⟨h3, h4⟩ := currentStreak_spec_aux idx d
  exact streak_unique idx d _ _ h1 h2 h3 h4

/-! ### Positive dates, sorting, and membership -/

theorem positives_nil : positives [] = [] := rfl

theorem positives_cons (d' : Int) (c : Nat) (t : List (Int × Nat)) :
    positives ((d', c) :: t) =
      if 0 < c then d' :: positives t else positives t := by
  by_cases h : 0 < c
  · simp [positives, List.filterMap_cons, h]
  · simp [positives, List.filterMap_cons, h]

theorem mem_positives_of_lookup_pos {idx : List (Int × Nat)} {d : Int}
    (h : 0 < lookup idx d) : d ∈ positives idx := by
  induction idx with
  | nil => simp [lookup_nil] at h
  | cons p t ih =>
      obtain ⟨d', c⟩ := p
      rw [lookup_cons] at h
      rw [positives_cons]
      by_cases hd : d' = d
      · subst hd
        rw [if_pos rfl] at h
        simp [if_pos h]
      · rw [if_neg hd] at h
        by_cases hc : 0 < c
        · simp [if_pos hc, ih h]
        · simp [if_neg hc, ih h]

theorem mem_keys_of_mem_positives {idx : List (Int × Nat)} {d : Int}
    (h : d ∈ positives idx) : d ∈ idx.map Prod.fst := by
  obtain ⟨p, hp, hf⟩ := List.mem_filterMap.mp h
  by_cases hc : 0 < p.2
  · rw [if_pos hc] at hf
    obtain rfl : p.1 = d := by simpa using hf
    exact List.mem_map.mpr ⟨p, hp, rfl⟩
  · rw [if_neg hc] at hf
    simp at hf

theorem lookup_pos_of_mem_positives {idx : List (Int × Nat)} {d : Int}
    (hnd : (idx.map Prod.fst).Nodup) (h : d ∈ positives idx) :
    0 < lookup idx d := by
  induction idx with
  | nil => simp [positives_nil] at h
  | cons p t ih =>
      obtain ⟨d', c⟩ := p
      simp only [List.map_cons, List.nodup_cons] at hnd
      obtain ⟨hd'nt, hndt⟩ := hnd
      rw [positives_cons] at h
      rw [lookup_cons]
      by_cases hc : 0 < c
      · rw [if_pos hc] at h
        rcases List.mem_cons.mp h with rfl | ht
        · rw [if_pos rfl]
          exact hc
        · have hne : d' ≠ d := by
            intro hEq
            subst hEq
            exact hd'nt (mem_keys_of_mem_positives ht)
          rw [if_neg hne]
          exact ih hndt ht
      · rw [if_neg hc] at h
        have hne : d' ≠ d := by
          intro hEq
          subst hEq
          exact hd'nt (mem_keys_of_mem_positives h)
        rw [if_neg hne]
        exact ih hndt h

theorem positives_eq_map_filter (idx : List (Int × Nat)) :
    positives idx = (idx.filter (fun p => decide (0 < p.2))).map Prod.fst := by
  induction idx with
  | nil => rfl
  | cons p t ih =>
      obtain ⟨d', c⟩ := p
      rw [positives_cons]
      by_cases hc : 0 < c
      · simp [List.filter_cons, hc, ih]
      · simp [List.filter_cons, hc, ih]

theorem positives_nodup {idx : List (Int × Nat)}
    (hnd : (idx.map Prod.fst).Nodup) : (positives idx).Nodup := by
  rw [positives_eq_map_filter]
  exact List.Nodup.sublist (List.Sublist.map Prod.fst (List.filter_sublist idx)) hnd

theorem mem_sortedDays (idx : List (Int × Nat)) (d : Int) :
    d ∈ sortedDays idx ↔ d ∈ positives idx := by
  exact (List.perm_insertionSort (· ≤ ·) (positives idx)).mem_iff

theorem sortedDays_pairwise {idx : List (Int × Nat)}
    (hnd : (idx.map Prod.fst).Nodup) :
    (sortedDays idx).Pairwise (· < ·) := by
  have hsorted : (sortedDays idx).Sorted (· ≤ ·) :=
    List.sorted_insertionSort (· ≤ ·) (positives idx)
  have hnodup : (sortedDays idx).Nodup :=
    ((List.perm_insertionSort (· ≤ ·) (positives idx)).nodup_iff).mpr
      (positives_nodup hnd)
  exact List.Sorted.lt_of_le hsorted hnodup

/-! ### Correctness of the longest-streak scan -/

theorem scanGo_nil (longest streak : Nat) (prev : Option Int) :
    scanGo longest streak prev [] = longest := rfl

theorem scanGo_cons_eq (longest streak : Nat) (p day : Int) (rest : List Int)
    (h : day = p + 1) :
    scanGo longest streak (some p) (day :: rest) =
      scanGo (max longest (streak + 1)) (streak + 1) (some day) rest := by
  simp [scanGo, h]

theorem scanGo_cons_ne (longest streak : Nat) (p day : Int) (rest : List Int)
    (h : ¬ day = p + 1) :
    scanGo longest streak (some p) (day :: rest) =
      scanGo (max longest 1) 1 (some day) rest := by
  simp [scanGo, h]

/-- Loop invariant for the longest-streak scan: processing the remaining
suffix `L` from state `(longest, streak, some p)` yields the maximum run
length of `D`, provided `streak` is the maximal run of `D` ending at `p`,
`longest` bounds (and is attained by) every run of `D` ending at or
before `p`, and `L` holds exactly the elements of `D` above `p`. -/
theorem scanGo_invariant (D : List Int) :
    ∀ (L : List Int) (p : Int) (streak longest : Nat),
      (∀ e, e ∈ L → e ∈ D) →
      (∀ e, e ∈ D → p < e → e ∈ L) →
      L.Pairwise (· < ·) →
      (∀ e, e ∈ L → p < e) →
      1 ≤ streak →
      isRunD D (p - (streak : Int) + 1) streak →
      (p - (streak : Int)) ∉ D →
      (∀ s : Int, ∀ n : Nat, isRunD D s n → s + (n : Int) ≤ p + 1 → n ≤ longest) →
      streak ≤ longest →
      (∃ s, isRunD D s longest) →
      (∀ s : Int, ∀ n : Nat, isRunD D s n → n ≤ scanGo longest streak (some p) L) ∧
      (∃ s, isRunD D s (scanGo longest streak (some p) L)) := by
  intro L
  induction L with
  | nil =>
      intro p streak longest h1 h2 h3 h4 h5 h6 h7 h8 h9 h10
      rw [scanGo_nil]
      refine ⟨?_, h10⟩
      intro s n hrun
      match n with
      | 0 => omega
      | m + 1 =>
          have hlast : s + (m : Int) ∈ D := hrun m (by omega)
          have hle : s + (m : Int) ≤ p := by
            by_contra hgt
            push_neg at hgt
            exact (List.not_mem_nil _) (h2 _ hlast hgt)
          exact h8 s (m + 1) hrun (by push_cast; omega)
  | cons day rest ih =>
      intro p streak longest h1 h2 h3 h4 h5 h6 h7 h8 h9 h10
      have hday_mem : day ∈ D := h1 day (List.mem_cons_self _ _)
      have hp_day : p < day := h4 day (List.mem_cons_self _ _)
      have hrest_pw : rest.Pairwise (· < ·) := (List.pairwise_cons.mp h3).2
      have hrest_gt : ∀ e ∈ rest, day < e := (List.pairwise_cons.mp h3).1
      by_cases hcon : day = p + 1
      · rw [scanGo_cons_eq longest streak p day rest hcon]
        apply ih day (streak + 1) (max longest (streak + 1))
        · intro e he
          exact h1 e (List.mem_cons_of_mem _ he)
        · intro e heD hlt
          have : e ∈ day :: rest := h2 e heD (by omega)
          rcases List.mem_cons.mp this with rfl | hmem
          · omega
          · exact hmem
        · exact hrest_pw
        · exact hrest_gt
        · omega
        · intro i hi
          by_cases hilt : i < streak
          · have := h6 i hilt
            have harith :
                day - ((streak + 1 : Nat) : Int) + 1 + (i : Int) =
                p - (streak : Int) + 1 + (i : Int) := by
              push_cast
              omega
            rw [harith]
            exact this
          · have hieq : i = streak := by omega
            subst hieq
            have harith :
                day - ((i + 1 : Nat) : Int) + 1 + (i : Int) = day := by
              push_cast
              omega
            rw [harith]
            exact hday_mem
        · have harith : day - ((streak + 1 : Nat) : Int) = p - (streak : Int) := by
            push_cast
            omega
          rw [harith]
          exact h7
        · intro s n hrun hle
          match n with
          | 0 => omega
          | m + 1 =>
              by_cases hbelow : s + ((m + 1 : Nat) : Int) ≤ p + 1
              · exact le_trans (h8 s (m + 1) hrun hbelow) (le_max_left _ _)
              · push_neg at hbelow
                have hlast : s + (m : Int) ∈ D := hrun m (by omega)
                have hlastL : s + (m : Int) ∈ day :: rest :=
                  h2 _ hlast (by push_cast at hbelow; omega)
                have hlast_day : s + (m : Int) = day := by
                  rcases List.mem_cons.mp hlastL with hEq | hmem
                  · exact hEq
                  · have := hrest_gt _ hmem
                    push_cast at hle
                    omega
                have hbound : m + 1 ≤ streak + 1 := by
                  by_contra hgt
                  push_neg at hgt
                  have hidx : m - (streak + 1) < m + 1 := by omega
                  have := hrun (m - (streak + 1)) hidx
                  have harith :
                      s + ((m - (streak + 1) : Nat) : Int) =
                      day - ((streak + 1 : Nat) : Int) := by
                    push_cast
                    omega
                  rw [harith] at this
                  have harith2 : day - ((streak + 1 : Nat) : Int) = p - (streak : Int) := by
                    push_cast
                    omega
                  rw [harith2] at this
                  exact h7 this
                exact le_trans hbound (le_max_right _ _)
        · exact le_max_right _ _
        · rcases Nat.le_total longest (streak + 1) with hmax | hmax
          · rw [max_eq_right hmax]
            refine ⟨day - ((streak + 1 : Nat) : Int) + 1, ?_⟩
            intro i hi
            by_cases hilt : i < streak
            · have := h6 i hilt
              have harith :
                  day - ((streak + 1 : Nat) : Int) + 1 + (i : Int) =
                  p - (streak : Int) + 1 + (i : Int) := by
                push_cast
                omega
              rw [harith]
              exact this
            · have hieq : i = streak := by omega
              subst hieq
              have harith :
                  day - ((i + 1 : Nat) : Int) + 1 + (i : Int) = day := by
                push_cast
                omega
              rw [harith]
              exact hday_mem
          · rw [max_eq_left hmax]
            exact h10
      · rw [scanGo_cons_ne longest streak p day rest hcon]
        apply ih day 1 (max longest 1)
        · intro e he
          exact h1 e (List.mem_cons_of_mem _ he)
        · intro e heD hlt
          have : e ∈ day :: rest := h2 e heD (by omega)
          rcases List.mem_cons.mp this with rfl | hmem
          · omega
          · exact hmem
        · exact hrest_pw
        · exact hrest_gt
        · omega
        · intro i hi
          have hieq : i = 0 := by omega
          subst hieq
          have harith : day - ((1 : Nat) : Int) + 1 + ((0 : Nat) : Int) = day := by
            push_cast
            omega
          rw [harith]
          exact hday_mem
        · intro hmem
          have hgt : p < day - ((1 : Nat) : Int) := by
            push_cast
            omega
          have : day - ((1 : Nat) : Int) ∈ day :: rest := h2 _ hmem hgt
          rcases List.mem_cons.mp this with hEq | hmem'
          · push_cast at hEq
            omega
          · have := hrest_gt _ hmem'
            push_cast at this
            omega
        · intro s n hrun hle
          match n with
          | 0 => omega
          | m + 1 =>
              by_cases hbelow : s + ((m + 1 : Nat) : Int) ≤ p + 1
              · exact le_trans (h8 s (m + 1) hrun hbelow) (le_max_left _ _)
              · push_neg at hbelow
                have hlast : s + (m : Int) ∈ D := hrun m (by omega)
                have hlastL : s + (m : Int) ∈ day :: rest :=
                  h2 _ hlast (by push_cast at hbelow; omega)
                have hlast_day : s + (m : Int) = day := by
                  rcases List.mem_cons.mp hlastL with hEq | hmem
                  · exact hEq
                  · have := hrest_gt _ hmem
                    push_cast at hle
                    omega
                have hbound : m + 1 ≤ 1 := by
                  by_contra hgt
                  push_neg at hgt
                  have hidx : m - 1 < m + 1 := by omega
                  have := hrun (m - 1) hidx
                  have harith :
                      s + ((m - 1 : Nat) : Int) = day - ((1 : Nat) : Int) := by
                    push_cast
                    omega
                  rw [harith] at this
                  have hgt2 : p < day - ((1 : Nat) : Int) := by
                    push_cast
                    omega
                  have hmemL : day - ((1 : Nat) : Int) ∈ day :: rest :=
                    h2 _ this hgt2
                  rcases List.mem_cons.mp hmemL with hEq | hmem'
                  · push_cast at hEq
                    omega
                  · have := hrest_gt _ hmem'
                    push_cast at this
                    omega
                exact le_trans hbound (le_max_right _ _)
        · exact le_max_right _ _
        · rcases Nat.le_total longest 1 with hmax | hmax
          · rw [max_eq_right hmax]
            refine ⟨day, ?_⟩
            intro i hi
            have hieq : i = 0 := by omega
            subst hieq
            simpa using hday_mem
          · rw [max_eq_left hmax]
            exact h10

theorem scanGo_cons_none (longest streak : Nat) (day : Int) (rest : List Int) :
    scanGo longest streak none (day :: rest) =
      scanGo (max longest 1) 1 (some day) rest := by
  simp [scanGo]

theorem scanGo_spec (D : List Int) (hD : D.Pairwise (· < ·)) :
    (∀ s : Int, ∀ n : Nat, isRunD D s n → n ≤ scanGo 0 0 none D) ∧
    (scanGo 0 0 none D = 0 ∨ ∃ s, isRunD D s (scanGo 0 0 none D)) := by
  match D with
  | [] =>
      refine ⟨?_, Or.inl rfl⟩
      intro s n hrun
      match n with
      | 0 => omega
      | m + 1 =>
          have := hrun 0 (by omega)
          simp at this
  | d :: rest =>
      rw [scanGo_cons_none]
      have hmax : max 0 1 = 1 := by omega
      rw [hmax]
      have hrest_pw : rest.Pairwise (· < ·) := (List.pairwise_cons.mp hD).2
      have hrest_gt : ∀ e ∈ rest, d < e := (List.pairwise_cons.mp hD).1
      have hmain := scanGo_invariant (d :: rest) rest d 1 1
        (fun e he => List.mem_cons_of_mem _ he)
        (by
          intro e heD hlt
          rcases List.mem_cons.mp heD with rfl | hmem
          · omega
          · exact hmem)
        hrest_pw
        hrest_gt
        (by omega)
        (by
          intro i hi
          have hieq : i = 0 := by omega
          subst hieq
          have harith : d - ((1 : Nat) : Int) + 1 + ((0 : Nat) : Int) = d := by
            push_cast
            omega
          rw [harith]
          exact List.mem_cons_self _ _)
        (by
          intro hmem
          rcases List.mem_cons.mp hmem with hEq | hmem'
          · push_cast at hEq
            omega
          · have := hrest_gt _ hmem'
            push_cast at this
            omega)
        (by
          intro s n hrun hle
          match n with
          | 0 => omega
          | m + 1 =>
              have hlast : s + (m : Int) ∈ d :: rest := hrun m (by omega)
              have hlast_d : s + (m : Int) = d := by
                rcases List.mem_cons.mp hlast with hEq | hmem
                · exact hEq
                · have := hrest_gt _ hmem
                  push_cast at hle
                  omega
              by_contra hgt
              push_neg at hgt
              have hidx : m - 1 < m + 1 := by omega
              have hmem2 := hrun (m - 1) hidx
              have harith : s + ((m - 1 : Nat) : Int) = d - 1 := by
                omega
              rw [harith] at hmem2
              rcases List.mem_cons.mp hmem2 with hEq | hmem'
              · omega
              · have := hrest_gt _ hmem'
                omega)
        (by omega)
        ⟨d, by
          intro i hi
          have hieq : i = 0 := by omega
          subst hieq
          simp⟩
      exact ⟨hmain.1, Or.inr hmain.2⟩

/-- Every run of consecutive dates with positive looked-up counts is at
most `longestStreak` long (index keys unique, as for a `HashMap`). -/
theorem longestStreak_upper (idx : List (Int × Nat))
    (hnd : (idx.map Prod.fst).Nodup) :
    ∀ s : Int, ∀ n : Nat,
      (∀ i : Nat, i < n → 0 < lookup idx (s + (i : Int))) →
      n ≤ longestStreak idx := by
  intro s n hrun
  have hpw := sortedDays_pairwise hnd
  refine (scanGo_spec (sortedDays idx) hpw).1 s n ?_
  intro i hi
  exact (mem_sortedDays idx _).mpr (mem_positives_of_lookup_pos (hrun i hi))

/-- `longestStreak` is attained by an actual run (or is `0`). -/
theorem longestStreak_achieved (idx : List (Int × Nat))
    (hnd : (idx.map Prod.fst).Nodup) :
    longestStreak idx = 0 ∨
      ∃ s : Int, ∀ i : Nat, i < longestStreak idx →
        0 < lookup idx (s + (i : Int)) := by
  have hpw := sortedDays_pairwise hnd
  rcases (scanGo_spec (sortedDays idx) hpw).2 with h0 | ⟨s, hs⟩
  · exact Or.inl h0
  · refine Or.inr ⟨s, ?_⟩
    intro i hi
    exact lookup_pos_of_mem_positives hnd ((mem_sortedDays idx _).mp (hs i hi))

/-- The current streak is one run, so it is bounded by the longest
streak. -/
theorem currentStreak_le_longestStreak (idx : List (Int × Nat)) (today : Int)
    (hnd : (idx.map Prod.fst).Nodup) :
    currentStreak idx today ≤ longestStreak idx := by
  obtain ⟨h1, _⟩ := currentStreak_spec_aux idx today
  match hcs : currentStreak idx today with
  | 0 => omega
  | m + 1 =>
      refine longestStreak_upper idx hnd (today - (m : Int)) (m + 1) ?_
      intro i hi
      have hj : m - i < currentStreak idx today := by omega
      have := h1 (m - i) hj
      have harith : today - (m : Int) + (i : Int) = today - ((m - i : Nat) : Int) := by
        omega
      rw [harith]
      exact this

/-! ### The 30-day window loop -/

theorem foldl_windowStep (idx : List (Int × Nat)) (today : Int) :
    ∀ (l : List Nat) (a c : Nat) (hs : List Nat),
      l.foldl (windowStep idx today) (a, c, hs) =
        ( a + l.countP (fun i => decide (0 < lookup idx (today - (i : Int))))
        , c + (l.map (fun i => lookup idx (today - (i : Int)))).sum
        , hs ++ l.map (fun i => barHeight (lookup idx (today - (i : Int)))) ) := by
  intro l
  induction l with
  | nil => intro a c hs; simp
  | cons i t ih =>
      intro a c hs
      by_cases h : 0 < lookup idx (today - (i : Int))
      · rw [List.foldl_cons]
        have hstep : windowStep idx today (a, c, hs) i =
            (a + 1, c + lookup idx (today - (i : Int)),
             hs ++ [barHeight (lookup idx (today - (i : Int)))]) := by
          simp [windowStep, h]
        rw [hstep, ih]
        simp [List.countP_cons, h, List.append_assoc]
        omega
      · have hz : lookup idx (today - (i : Int)) = 0 := by omega
        rw [List.foldl_cons]
        have hstep : windowStep idx today (a, c, hs) i =
            (a, c, hs ++ [barHeight (lookup idx (today - (i : Int)))]) := by
          simp [windowStep, h]
        rw [hstep, ih]
        simp [List.countP_cons, h, hz, List.append_assoc]

theorem active30_eq (idx : List (Int × Nat)) (today : Int) :
    active30 idx today =
      (windowDays today).countP (fun d => decide (0 < lookup idx d)) := by
  unfold active30 windowLoop windowDays
  rw [foldl_windowStep]
  simp [List.countP_map, Function.comp_def]

theorem commits30_eq (idx : List (Int × Nat)) (today : Int) :
    commits30 idx today = (windowCounts idx today).sum := by
  unfold commits30 windowLoop windowCounts windowDays
  rw [foldl_windowStep]
  simp [List.map_map, Function.comp_def]

theorem barHeights_eq (idx : List (Int × Nat)) (today : Int) :
    barHeights idx today = (windowCounts idx today).map barHeight := by
  unfold barHeights windowLoop windowCounts windowDays
  rw [foldl_windowStep]
  simp [List.map_map, Function.comp_def]

/-- The window loop visits exactly the 30 consecutive dates ending at
and including `today`, oldest first. -/
theorem windowDays_explicit (today : Int) :
    windowDays today =
      [today - 29, today - 28, today - 27, today - 26, today - 25, today - 24,
       today - 23, today - 22, today - 21, today - 20, today - 19, today - 18,
       today - 17, today - 16, today - 15, today - 14, today - 13, today - 12,
       today - 11, today - 10, today - 9, today - 8, today - 7, today - 6,
       today - 5, today - 4, today - 3, today - 2, today - 1, today - 0] := rfl

theorem foldl_windowStep_congr (a b : List (Int × Nat)) (today : Int) :
    ∀ (l : List Nat) (st : Nat × Nat × List Nat),
      (∀ i ∈ l, lookup a (today - (i : Int)) = lookup b (today - (i : Int))) →
      l.foldl (windowStep a today) st = l.foldl (windowStep b today) st := by
  intro l
  induction l with
  | nil => intro st _; rfl
  | cons i t ih =>
      intro st h
      rw [List.foldl_cons, List.foldl_cons]
      have hstep : windowStep a today st i = windowStep b today st i := by
        simp [windowStep, h i (List.mem_cons_self _ _)]
      rw [hstep]
      exact ih _ (fun j hj => h j (List.mem_cons_of_mem _ hj))

/-- The window metrics depend only on the counts of the window's 30
days (all of which are at most `today`). -/
theorem windowLoop_congr (a b : List (Int × Nat)) (today : Int)
    (h : ∀ d : Int, d ≤ today → lookup a d = lookup b d) :
    windowLoop a today = windowLoop b today := by
  unfold windowLoop
  apply foldl_windowStep_congr
  intro i hi
  apply h
  omega

/-! ### Index construction: insert-replace and last-write-wins -/

theorem lookup_insertAL (m : List (Int × Nat)) (d : Int) (c : Nat) (x : Int) :
    lookup (insertAL m d c) x = if d = x then c else lookup m x := by
  induction m with
  | nil =>
      rw [insertAL, lookup_cons]
  | cons p t ih =>
      obtain ⟨d', c'⟩ := p
      rw [insertAL]
      by_cases hd : d' = d
      · subst hd
        rw [if_pos rfl, lookup_cons, lookup_cons]
        by_cases hx : d' = x
        · simp [hx]
        · simp [hx]
      · rw [if_neg hd, lookup_cons, ih, lookup_cons]
        by_cases hx : d' = x
        · subst hx
          have : ¬ d = d' := fun hEq => hd hEq.symm
          simp [this]
        · simp [hx]

theorem mem_keys_insertAL (m : List (Int × Nat)) (d : Int) (c : Nat) (x : Int) :
    x ∈ (insertAL m d c).map Prod.fst ↔ x ∈ m.map Prod.fst ∨ x = d := by
  induction m with
  | nil =>
      simp only [insertAL, List.map_cons, List.map_nil, List.mem_cons,
        List.not_mem_nil]
      tauto
  | cons p t ih =>
      obtain ⟨d', c'⟩ := p
      by_cases hd : d' = d
      · subst hd
        rw [insertAL, if_pos rfl]
        simp only [List.map_cons, List.mem_cons]
        tauto
      · rw [insertAL, if_neg hd]
        simp only [List.map_cons, List.mem_cons, ih]
        tauto

theorem nodup_keys_insertAL (m : List (Int × Nat)) (d : Int) (c : Nat)
    (h : (m.map Prod.fst).Nodup) : ((insertAL m d c).map Prod.fst).Nodup := by
  induction m with
  | nil => simp [insertAL]
  | cons p t ih =>
      obtain ⟨d', c'⟩ := p
      simp only [List.map_cons, List.nodup_cons] at h
      obtain ⟨hd't, hndt⟩ := h
      by_cases hd : d' = d
      · subst hd
        rw [insertAL, if_pos rfl]
        simp only [List.map_cons, List.nodup_cons]
        exact ⟨hd't, hndt⟩
      · rw [insertAL, if_neg hd]
        simp only [List.map_cons, List.nodup_cons]
        refine ⟨?_, ih hndt⟩
        intro hmem
        rcases (mem_keys_insertAL t d c d').mp hmem with h1 | h2
        · exact hd't h1
        · exact hd h2

/-- The built index always has pairwise-distinct keys, like the
`HashMap` it models. -/
theorem build_nodup_keys (entries : List (Int × Nat)) :
    ((build entries).map Prod.fst).Nodup := by
  suffices h : ∀ (es m : List (Int × Nat)), (m.map Prod.fst).Nodup →
      (((es.foldl (fun m p => insertAL m p.1 p.2) m)).map Prod.fst).Nodup by
    exact h entries [] (by simp)
  intro es
  induction es with
  | nil => intro m hm; simpa using hm
  | cons p t ih =>
      intro m hm
      rw [List.foldl_cons]
      exact ih _ (nodup_keys_insertAL m p.1 p.2 hm)

theorem lw_factor (x : Int) :
    ∀ (t : List (Int × Nat)) (a : Option Nat),
      t.foldl (fun acc p => if p.1 = x then some p.2 else acc) a =
        match t.foldl (fun acc p => if p.1 = x then some p.2 else acc) none with
        | some c => some c
        | none => a := by
  intro t
  induction t with
  | nil => intro a; rfl
  | cons p t ih =>
      intro a
      rw [List.foldl_cons, List.foldl_cons]
      rw [ih (if p.1 = x then some p.2 else a)]
      rw [ih (if p.1 = x then some p.2 else none)]
      rcases h : t.foldl (fun acc p => if p.1 = x then some p.2 else acc) none with _ | c
      · by_cases hp : p.1 = x <;> simp [h, hp]
      · simp [h]

theorem lookup_foldl_insert (x : Int) :
    ∀ (es m : List (Int × Nat)),
      lookup (es.foldl (fun m p => insertAL m p.1 p.2) m) x =
        (es.foldl (fun acc p => if p.1 = x then some p.2 else acc) none).getD
          (lookup m x) := by
  intro es
  induction es with
  | nil => intro m; rfl
  | cons p t ih =>
      intro m
      rw [List.foldl_cons, List.foldl_cons, ih]
      rw [lw_factor x t (if p.1 = x then some p.2 else none)]
      rcases h : t.foldl (fun acc p => if p.1 = x then some p.2 else acc) none with _ | c
      · by_cases hp : p.1 = x <;> simp [h, hp, lookup_insertAL]
      · simp [h]

/-- Looking up the built index realises the spec's last-write-wins rule:
the stored count is that of the last occurrence in input order (`0` when
the date never occurs). -/
theorem lookup_build (entries : List (Int × Nat)) (x : Int) :
    lookup (build entries) x = lastWriteWins entries x := by
  unfold build lastWriteWins
  rw [lookup_foldl_insert]
  rfl

theorem insertAL_append (m : List (Int × Nat)) (d : Int) (c : Nat)
    (h : d ∉ m.map Prod.fst) : insertAL m d c = m ++ [(d, c)] := by
  induction m with
  | nil => rfl
  | cons p t ih =>
      obtain ⟨d', c'⟩ := p
      simp only [List.map_cons, List.mem_cons] at h
      push_neg at h
      rw [insertAL, if_neg (fun hEq => h.1 hEq.symm)]
      rw [ih h.2]
      simp

/-- On an input whose dates are pairwise distinct, building the index
preserves the list itself: every insert appends a fresh entry. -/
theorem build_eq_self (entries : List (Int × Nat))
    (h : (entries.map Prod.fst).Nodup) : build entries = entries := by
  suffices hgen : ∀ (es m : List (Int × Nat)),
      ((m ++ es).map Prod.fst).Nodup →
      es.foldl (fun m p => insertAL m p.1 p.2) m = m ++ es by
    simpa using hgen entries [] (by simpa using h)
  intro es
  induction es with
  | nil => intro m _; simp
  | cons p t ih =>
      intro m hm
      obtain ⟨d, c⟩ := p
      have hmap : ((m ++ (d, c) :: t).map Prod.fst) =
          m.map Prod.fst ++ d :: t.map Prod.fst := by
        simp
      rw [hmap] at hm
      rw [List.nodup_append] at hm
      obtain ⟨hnm, hnd, hdisj⟩ := hm
      have hdm : d ∉ m.map Prod.fst := by
        intro hmem
        exact hdisj hmem (List.mem_cons_self _ _)
      rw [List.foldl_cons]
      simp only
      rw [insertAL_append m d c hdm]
      rw [ih (m ++ [(d, c)])]
      · simp
      · simp only [List.append_assoc, List.singleton_append]
        rw [hmap, List.nodup_append]
        exact ⟨hnm, hnd, hdisj⟩

/-! ### Order-independence -/

theorem find?_eq_head_filter {α : Type} (p : α → Bool) :
    ∀ l : List α, l.find? p = (l.filter p).head? := by
  intro l
  induction l with
  | nil => rfl
  | cons a t ih =>
      by_cases h : p a = true
      · rw [List.find?_cons_of_pos _ h, List.filter_cons, h, if_pos rfl]
        rfl
      · have h' : p a = false := by simpa using h
        rw [List.find?_cons_of_neg _ h, List.filter_cons, h',
          if_neg Bool.false_ne_true]
        exact ih

theorem filter_key_length_le_one {idx : List (Int × Nat)}
    (hnd : (idx.map Prod.fst).Nodup) (x : Int) :
    (idx.filter (fun p => p.1 == x)).length ≤ 1 := by
  induction idx with
  | nil => simp
  | cons p t ih =>
      obtain ⟨d, c⟩ := p
      simp only [List.map_cons, List.nodup_cons] at hnd
      obtain ⟨hdt, hndt⟩ := hnd
      by_cases hd : d = x
      · subst hd
        have hnilt : t.filter (fun p => p.1 == d) = [] := by
          rw [List.filter_eq_nil_iff]
          intro a ha
          simp only [beq_iff_eq]
          intro hEq
          exact hdt (List.mem_map.mpr ⟨a, ha, hEq⟩)
        have hbeq : (((d, c) : Int × Nat).1 == d) = true := by
          simp
        rw [List.filter_cons, hbeq, if_pos rfl, hnilt]
        simp
      · have hb : (((d, c) : Int × Nat).1 == x) = false := by simpa using hd
        simp only [List.filter_cons, hb, Bool.false_eq_true, if_false]
        exact ih hndt

theorem eq_of_perm_length_le_one {α : Type} :
    ∀ {l l' : List α}, l.Perm l' → l.length ≤ 1 → l = l' := by
  intro l l' hp hl
  match l, hp, hl with
  | [], hp, _ =>
      exact (List.Perm.eq_nil hp.symm).symm
  | [a], hp, _ =>
      exact (List.perm_singleton.mp hp.symm).symm
  | a :: b :: t, _, hl =>
      simp at hl

/-- On indices with unique keys, `lookup` is invariant under
permutation of the stored entries. -/
theorem lookup_eq_of_perm {es es' : List (Int × Nat)} (hperm : es.Perm es')
    (hnd : (es.map Prod.fst).Nodup) (x : Int) : lookup es x = lookup es' x := by
  have hnd' : (es'.map Prod.fst).Nodup :=
    ((hperm.map Prod.fst).nodup_iff).mp hnd
  have hpf : (es.filter (fun p => p.1 == x)).Perm
      (es'.filter (fun p => p.1 == x)) := hperm.filter _
  have hlen : (es.filter (fun p => p.1 == x)).length ≤ 1 :=
    filter_key_length_le_one hnd x
  have heq : es.filter (fun p => p.1 == x) = es'.filter (fun p => p.1 == x) :=
    eq_of_perm_length_le_one hpf hlen
  unfold lookup
  rw [find?_eq_head_filter, find?_eq_head_filter, heq]

/-- The backward-walk characterisation transfers along any two indices
that agree on all dates up to `today`, so `currentStreak` does too. -/
theorem currentStreak_congr (a b : List (Int × Nat)) (today : Int)
    (h : ∀ d : Int, d ≤ today → lookup a d = lookup b d) :
    currentStreak a today = currentStreak b today := by
  obtain ⟨ha1, ha2⟩ := currentStreak_spec_aux a today
  obtain ⟨hb1, hb2⟩ := currentStreak_spec_aux b today
  refine streak_unique b today _ _ ?_ ?_ hb1 hb2
  · intro i hi
    rw [← h (today - (i : Int)) (by omega)]
    exact ha1 i hi
  · rw [← h (today - ((currentStreak a today : Nat) : Int)) (by omega)]
    exact ha2

/-- Sorting makes `longestStreak` insensitive to the order of the
stored entries. -/
theorem longestStreak_eq_of_perm {es es' : List (Int × Nat)}
    (hperm : es.Perm es') : longestStreak es = longestStreak es' := by
  have hpos : (positives es).Perm (positives es') := hperm.filterMap _
  have hsd : sortedDays es = sortedDays es' :=
    List.eq_of_perm_of_sorted
      (((List.perm_insertionSort (· ≤ ·) (positives es)).trans hpos).trans
        (List.perm_insertionSort (· ≤ ·) (positives es')).symm)
      (List.sorted_insertionSort (· ≤ ·) (positives es))
      (List.sorted_insertionSort (· ≤ ·) (positives es'))
  unfold longestStreak
  rw [hsd]

/-! ### Overflow-checked 32-bit sums -/

theorem checkedSum_none (l : List Nat) :
    l.foldl (fun acc c => acc.bind (fun a => checkedAdd a c)) none = none := by
  induction l with
  | nil => rfl
  | cons c t ih => simpa using ih

theorem checkedSum_go :
    ∀ (l : List Nat) (a : Nat), a < 2 ^ 32 →
      (a + l.sum < 2 ^ 32 ∧
        l.foldl (fun acc c => acc.bind (fun x => checkedAdd x c)) (some a) =
          some (a + l.sum)) ∨
      (2 ^ 32 ≤ a + l.sum ∧
        l.foldl (fun acc c => acc.bind (fun x => checkedAdd x c)) (some a) =
          none) := by
  intro l
  induction l with
  | nil =>
      intro a ha
      left
      simpa using ha
  | cons c t ih =>
      intro a ha
      rw [List.foldl_cons]
      by_cases hac : a + c < 2 ^ 32
      · have hstep : (some a).bind (fun x => checkedAdd x c) = some (a + c) := by
          show checkedAdd a c = some (a + c)
          rw [checkedAdd, if_pos hac]
        rw [hstep]
        rcases ih (a + c) hac with ⟨h1, h2⟩ | ⟨h1, h2⟩
        · left
          refine ⟨?_, ?_⟩
          · simp only [List.sum_cons]
            omega
          · rw [h2]
            congr 1
            simp only [List.sum_cons]
            omega
        · right
          refine ⟨?_, h2⟩
          simp only [List.sum_cons]
          omega
      · have hstep : (some a).bind (fun x => checkedAdd x c) = none := by
          show checkedAdd a c = none
          rw [checkedAdd, if_neg hac]
        rw [hstep, checkedSum_none]
        right
        refine ⟨?_, rfl⟩
        simp only [List.sum_cons]
        omega

/-- Dichotomy for the checked `u32` sum: it returns the exact
mathematical sum whenever that fits in 32 bits, and signals (`none`,
modelling the overflow panic) otherwise — it never wraps. -/
theorem checkedSum_spec (l : List Nat) :
    (l.sum < 2 ^ 32 ∧ checkedSum l = some l.sum) ∨
    (2 ^ 32 ≤ l.sum ∧ checkedSum l = none) := by
  have h := checkedSum_go l 0 (by norm_num)
  simpa [checkedSum] using h

/-! ### The rendered badge -/

/-- One `<rect …/>` bar (`main.rs` lines 239-244): `x = 24 + (29-i)*6`,
`y = 160 - height` (an unsigned subtraction, performed only when it
cannot underflow). -/
def rectBar (i : Nat) (height : Nat) : Option String :=
  if height ≤ 160 then
    some ("<rect x=\"" ++ toString (24 + (29 - i) * 6) ++ "\" y=\"" ++
      toString (160 - height) ++ "\" width=\"4\" height=\"" ++
      toString height ++ "\" rx=\"1\"/>")
  else none

/-- The `bars` string accumulated by the window loop, threading the
checked subtraction through `Option`. -/
def barsString (idx : List (Int × Nat)) (today : Int) : Option String :=
  ((List.range 30).reverse).foldl
    (fun acc i =>
      acc.bind (fun s =>
        (rectBar i (barHeight (lookup idx (today - (i : Int))))).map
          (fun r => s ++ r)))
    (some "")

/-- The SVG template (`main.rs` lines 248-348) with the computed values
interpolated as plain decimal integers. -/
def render (current_streak longest active_30 repos stars followers
    following commits_30 total_contributions : Nat) (bars : String) : String :=
  "\n<svg width=\"560\" height=\"240\" viewBox=\"0 0 560 240\" xmlns=\"http://www.w3.org/2000/svg\">\n" ++
  "<style>\n" ++
  ":root \x7b\n" ++
  "  --bg-start: #f7f4ef;\n" ++
  "  --bg-end: #e0f2fe;\n" ++
  "  --card: rgba(255,255,255,0.92);\n" ++
  "  --text: #0f172a;\n" ++
  "  --muted: #64748b;\n" ++
  "  --border: rgba(15,23,42,0.08);\n" ++
  "  --accent-1: #0ea5e9;\n" ++
  "  --accent-2: #22c55e;\n" ++
  "  --accent-3: #f59e0b;\n" ++
  "\x7d\n" ++
  "@media (prefers-color-scheme: dark) \x7b\n" ++
  "  :root \x7b\n" ++
  "    --bg-start: #0b1220;\n" ++
  "    --bg-end: #0f172a;\n" ++
  "    --card: rgba(15,23,42,0.88);\n" ++
  "    --text: #e2e8f0;\n" ++
  "    --muted: #94a3b8;\n" ++
  "    --border: rgba(148,163,184,0.18);\n" ++
  "    --accent-1: #38bdf8;\n" ++
  "    --accent-2: #4ade80;\n" ++
  "    --accent-3: #fbbf24;\n" ++
  "  \x7d\n" ++
  "\x7d\n" ++
  "\n" ++
  "text \x7b\n" ++
  "  font-family: \"Space Grotesk\", \"Manrope\", \"Segoe UI\", sans-serif;\n" ++
  "  fill: var(--text);\n" ++
  "\x7d\n" ++
  ".small \x7b fill: var(--muted); font-size: 11px; letter-spacing: 0.02em; \x7d\n" ++
  ".label \x7b fill: var(--muted); font-size: 10px; letter-spacing: 0.18em; \x7d\n" ++
  ".value \x7b font-size: 24px; font-weight: 600; \x7d\n" ++
  ".title \x7b font-size: 16px; font-weight: 600; letter-spacing: 0.06em; text-transform: uppercase; \x7d\n" ++
  ".chip \x7b fill: var(--text); font-size: 10px; letter-spacing: 0.14em; \x7d\n" ++
  ".bar \x7b fill: url(#barGrad); \x7d\n" ++
  "</style>\n" ++
  "\n" ++
  "<defs>\n" ++
  "  <linearGradient id=\"bg\" x1=\"0\" y1=\"0\" x2=\"1\" y2=\"1\">\n" ++
  "    <stop offset=\"0%\" stop-color=\"var(--bg-start)\"/>\n" ++
  "    <stop offset=\"100%\" stop-color=\"var(--bg-end)\"/>\n" ++
  "  </linearGradient>\n" ++
  "  <linearGradient id=\"barGrad\" x1=\"0\" y1=\"0\" x2=\"0\" y2=\"1\">\n" ++
  "    <stop offset=\"0%\" stop-color=\"var(--accent-1)\"/>\n" ++
  "    <stop offset=\"100%\" stop-color=\"var(--accent-2)\"/>\n" ++
  "  </linearGradient>\n" ++
  "  <linearGradient id=\"spark\" x1=\"0\" y1=\"0\" x2=\"1\" y2=\"1\">\n" ++
  "    <stop offset=\"0%\" stop-color=\"var(--accent-1)\" stop-opacity=\"0.9\"/>\n" ++
  "    <stop offset=\"100%\" stop-color=\"var(--accent-3)\" stop-opacity=\"0.9\"/>\n" ++
  "  </linearGradient>\n" ++
  "  <pattern id=\"grid\" width=\"22\" height=\"22\" patternUnits=\"userSpaceOnUse\">\n" ++
  "    <path d=\"M22 0H0V22\" fill=\"none\" stroke=\"rgba(15,23,42,0.06)\" stroke-width=\"1\"/>\n" ++
  "  </pattern>\n" ++
  "  <filter id=\"blur\" x=\"-20%\" y=\"-20%\" width=\"140%\" height=\"140%\">\n" ++
  "    <feGaussianBlur stdDeviation=\"18\"/>\n" ++
  "  </filter>\n" ++
  "</defs>\n" ++
  "\n" ++
  "<rect width=\"560\" height=\"240\" rx=\"28\" fill=\"url(#bg)\"/>\n" ++
  "<circle cx=\"72\" cy=\"40\" r=\"54\" fill=\"url(#spark)\" opacity=\"0.5\" filter=\"url(#blur)\"/>\n" ++
  "<circle cx=\"498\" cy=\"196\" r=\"64\" fill=\"url(#spark)\" opacity=\"0.35\" filter=\"url(#blur)\"/>\n" ++
  "\n" ++
  "<rect x=\"12\" y=\"12\" width=\"536\" height=\"216\" rx=\"22\" fill=\"var(--card)\" stroke=\"var(--border)\"/>\n" ++
  "<rect x=\"12\" y=\"12\" width=\"536\" height=\"216\" rx=\"22\" fill=\"url(#grid)\" opacity=\"0.55\"/>\n" ++
  "\n" ++
  "<text x=\"32\" y=\"38\" class=\"title\">GitHub Activity 🥷</text>\n" ++
  "<rect x=\"426\" y=\"22\" width=\"106\" height=\"20\" rx=\"10\" fill=\"url(#spark)\" opacity=\"0.12\"/>\n" ++
  "<text x=\"440\" y=\"36\" class=\"chip\">LAST 30D</text>\n" ++
  "\n" ++
  "<text x=\"32\" y=\"84\" class=\"value\">🔥 " ++ toString current_streak ++ "</text>\n" ++
  "<text x=\"32\" y=\"102\" class=\"label\">CURRENT STREAK</text>\n" ++
  "\n" ++
  "<text x=\"176\" y=\"84\" class=\"value\">🏆 " ++ toString longest ++ "</text>\n" ++
  "<text x=\"176\" y=\"102\" class=\"label\">LONGEST</text>\n" ++
  "\n" ++
  "<text x=\"304\" y=\"84\" class=\"value\">📈 " ++ toString active_30 ++ "/30</text>\n" ++
  "<text x=\"304\" y=\"102\" class=\"label\">ACTIVE DAYS</text>\n" ++
  "\n" ++
  "<rect x=\"32\" y=\"126\" width=\"496\" height=\"62\" rx=\"14\" fill=\"rgba(15,23,42,0.04)\"/>\n" ++
  "<line x1=\"32\" y1=\"188\" x2=\"528\" y2=\"188\" stroke=\"rgba(15,23,42,0.08)\" stroke-width=\"1\"/>\n" ++
  "<g transform=\"translate(32,128)\">" ++ bars ++ "</g>\n" ++
  "\n" ++
  "<text x=\"32\" y=\"210\" class=\"small\">\n" ++
  "Repos " ++ toString repos ++ " · Stars " ++ toString stars ++
  " · Followers " ++ toString followers ++ " · Following " ++ toString following ++
  " · Commits(30d) " ++ toString commits_30 ++ " · Total " ++ toString total_contributions ++ "\n" ++
  "</text>\n" ++
  "</svg>\n"

/-- The full badge production: compute the metrics, build the bar
string, splice everything into the template. -/
def renderSVG (idx : List (Int × Nat)) (today : Int)
    (repos stars followers following total_contributions : Nat) : Option String :=
  (barsString idx today).map (fun bars =>
    render (currentStreak idx today) (longestStreak idx) (active30 idx today)
      repos stars followers following (commits30 idx today)
      total_contributions bars)

theorem barHeight_ge (count : Nat) : 4 ≤ barHeight count := by
  unfold barHeight
  omega

theorem barHeight_le (count : Nat) : barHeight count ≤ 34 := by
  unfold barHeight
  have h := Nat.min_le_right count 5
  omega

theorem rectBar_isSome (i height : Nat) (h : height ≤ 160) :
    ∃ s, rectBar i height = some s := by
  rw [rectBar, if_pos h]
  exact ⟨_, rfl⟩

theorem barsString_isSome (idx : List (Int × Nat)) (today : Int) :
    ∃ s, barsString idx today = some s := by
  suffices hgen : ∀ (l : List Nat) (s0 : String),
      ∃ s, l.foldl
        (fun acc i =>
          acc.bind (fun s =>
            (rectBar i (barHeight (lookup idx (today - (i : Int))))).map
              (fun r => s ++ r)))
        (some s0) = some s by
    exact hgen ((List.range 30).reverse) ""
  intro l
  induction l with
  | nil => intro s0; exact ⟨s0, rfl⟩
  | cons i t ih =>
      intro s0
      obtain ⟨r, hr⟩ := rectBar_isSome i
        (barHeight (lookup idx (today - (i : Int))))
        (le_trans (barHeight_le _) (by omega))
      rw [List.foldl_cons]
      have hstep : (some s0).bind (fun s =>
          (rectBar i (barHeight (lookup idx (today - (i : Int))))).map
            (fun r => s ++ r)) = some (s0 ++ r) := by
        simp [hr]
      rw [hstep]
      exact ih (s0 ++ r)

/-- Rendering is total: the badge is always produced, for every index,
every `today`, and all profile numbers. -/
theorem renderSVG_total (idx : List (Int × Nat)) (today : Int)
    (repos stars followers following total_contributions : Nat) :
    ∃ s, renderSVG idx today repos stars followers following
      total_contributions = some s := by
  obtain ⟨b, hb⟩ := barsString_isSome idx today
  rw [renderSVG, hb, Option.map_some']
  exact ⟨_, rfl⟩

/-! ### Claim theorems -/

/-- C1: for every contribution index and every injected date `today`,
`currentStreak` equals the number of consecutive calendar days with a
positive looked-up count ending at and including `today`, walking
backward one day at a time and stopping at the first day whose lookup
yields `0`; in particular, if `lookup today = 0` (including when `today`
is absent), `currentStreak = 0`. Stated as: every day strictly inside
the computed streak has a positive count, the day just past it has
count `0`, a zero count at `today` forces streak `0`, and any value
with the walk's stopping property is the computed one. -/
theorem currentStreak_correct :
    ∀ (idx : List (Int × Nat)) (today : Int),
      (∀ i : Nat, i < currentStreak idx today →
        0 < lookup idx (today - (i : Int))) ∧
      lookup idx (today - (currentStreak idx today : Int)) = 0 ∧
      (lookup idx today = 0 → currentStreak idx today = 0) ∧
      (∀ n : Nat,
        (∀ i : Nat, i < n → 0 < lookup idx (today - (i : Int))) →
        lookup idx (today - (n : Int)) = 0 →
        n = currentStreak idx today) := by
  intro idx today
  obtain ⟨h1, h2⟩ := currentStreak_spec_aux idx today
  refine ⟨h1, h2, ?_, ?_⟩
  · intro h0
    by_contra hne
    have hpos : 0 < currentStreak idx today := Nat.pos_of_ne_zero hne
    have := h1 0 hpos
    simp only [Nat.cast_zero, sub_zero] at this
    omega
  · intro n hn1 hn2
    exact streak_unique idx today n _ hn1 hn2 h1 h2

theorem currentStreak_correct_witness :
    (1 : Nat) = currentStreak (build [(5, 2)]) 5 := by
  refine (currentStreak_correct (build [(5, 2)]) 5).2.2.2 1 ?_ ?_
  · intro i hi
    have hieq : i = 0 := by omega
    subst hieq
    decide
  · decide

/-- C2: `longestStreak` equals the maximum length over all runs of
consecutive calendar dates with positive counts anywhere in the index
(keys unique, as in the `HashMap` it is computed from): every run is
bounded by it, and it is attained by some run unless it is `0`. For the
concrete index `{2024-01-01: 3, 2024-01-02: 1, 2024-01-03: 0}` (dates
encoded as offsets from 2024-01-01) the result is `2`. -/
theorem longestStreak_correct :
    (∀ idx : List (Int × Nat), (idx.map Prod.fst).Nodup →
      (∀ s : Int, ∀ n : Nat,
        (∀ i : Nat, i < n → 0 < lookup idx (s + (i : Int))) →
        n ≤ longestStreak idx) ∧
      (longestStreak idx = 0 ∨
        ∃ s : Int, ∀ i : Nat, i < longestStreak idx →
          0 < lookup idx (s + (i : Int)))) ∧
    longestStreak (build [(0, 3), (1, 1), (2, 0)]) = 2 := by
  constructor
  · intro idx hnd
    exact ⟨longestStreak_upper idx hnd, longestStreak_achieved idx hnd⟩
  · decide

theorem longestStreak_correct_witness :
    2 ≤ longestStreak (build [(0, 3), (1, 1), (2, 0)]) := by
  refine (longestStreak_correct.1 (build [(0, 3), (1, 1), (2, 0)])
    (by decide)).1 0 2 ?_
  intro i hi
  interval_cases i <;> decide

/-- C3: the backward walk terminates purely because the index is
finite: any fuel beyond `idx.length` yields the same (stable) value, the
streak never exceeds the number of stored entries, and on the empty
index the result is `0`. -/
theorem currentStreak_terminates :
    ∀ (idx : List (Int × Nat)) (d : Int),
      (∀ fuel : Nat, idx.length < fuel →
        currentStreakAux idx fuel d = currentStreak idx d) ∧
      currentStreak idx d ≤ idx.length ∧
      currentStreak [] d = 0 := by
  intro idx d
  exact ⟨fun fuel hf => currentStreakAux_fuel_indep idx d fuel hf,
    currentStreak_le_length idx d, rfl⟩

theorem currentStreak_terminates_witness :
    currentStreakAux (build [(5, 2)]) 57 5 = currentStreak (build [(5, 2)]) 5 :=
  (currentStreak_terminates (build [(5, 2)]) 5).1 57 (by decide)

/-- C4: for every contribution index (unique keys, an invariant every
built index enjoys) and every `today`, the longest streak is at least
the current streak. -/
theorem longest_ge_current :
    (∀ (idx : List (Int × Nat)) (today : Int), (idx.map Prod.fst).Nodup →
      currentStreak idx today ≤ longestStreak idx) ∧
    (∀ entries : List (Int × Nat), ((build entries).map Prod.fst).Nodup) :=
  ⟨fun idx today hnd => currentStreak_le_longestStreak idx today hnd,
    build_nodup_keys⟩

theorem longest_ge_current_witness :
    currentStreak (build [(0, 3), (1, 1), (2, 0)]) 1 ≤
      longestStreak (build [(0, 3), (1, 1), (2, 0)]) :=
  longest_ge_current.1 (build [(0, 3), (1, 1), (2, 0)]) 1 (by decide)

/-- C5: the window aggregation visits exactly the 30 calendar dates
ending at and including `today`, oldest first; `active30` counts the
window days with positive count, `commits30` sums the true unclamped
counts, and each bar height is `min(count, 5) * 6 + 4`; counts `6` and
`10` get the same clamped height while the window total still counts
`6 + 10 = 16`. -/
theorem window_correct :
    (∀ (idx : List (Int × Nat)) (today : Int),
      windowDays today =
        [today - 29, today - 28, today - 27, today - 26, today - 25,
         today - 24, today - 23, today - 22, today - 21, today - 20,
         today - 19, today - 18, today - 17, today - 16, today - 15,
         today - 14, today - 13, today - 12, today - 11, today - 10,
         today - 9, today - 8, today - 7, today - 6, today - 5,
         today - 4, today - 3, today - 2, today - 1, today - 0] ∧
      active30 idx today =
        (windowDays today).countP (fun d => decide (0 < lookup idx d)) ∧
      commits30 idx today =
        ((windowDays today).map (fun d => lookup idx d)).sum ∧
      barHeights idx today =
        (windowDays today).map (fun d => barHeight (lookup idx d))) ∧
    commits30 (build [(0, 6), (1, 10)]) 1 = 16 ∧
    barHeight 6 = barHeight 10 := by
  refine ⟨?_, by decide, by decide⟩
  intro idx today
  refine ⟨windowDays_explicit today, active30_eq idx today,
    commits30_eq idx today, ?_⟩
  rw [barHeights_eq]
  unfold windowCounts
  rw [List.map_map]
  rfl

/-- C6: the sums and counters of the core, modelled with the
overflow-checked `u32` arithmetic of Rust's default (dev) profile,
never silently wrap: a checked sum is the exact mathematical value
whenever that fits in 32 bits and otherwise signals the overflow
(`none`, the model of the panic); the 30-day commit sum agrees with its
checked counterpart whenever it fits, the total-stars sum is exact
whenever it fits, and the streak counter is bounded by the number of
stored entries. -/
theorem arithmetic_no_silent_wrap :
    (∀ l : List Nat,
      (l.sum < 2 ^ 32 ∧ checkedSum l = some l.sum) ∨
      (2 ^ 32 ≤ l.sum ∧ checkedSum l = none)) ∧
    (∀ (idx : List (Int × Nat)) (today : Int),
      commits30 idx today < 2 ^ 32 →
      checkedSum (windowCounts idx today) = some (commits30 idx today)) ∧
    (∀ stars : List Nat, stars.sum < 2 ^ 32 →
      checkedSum stars = some stars.sum) ∧
    (∀ (idx : List (Int × Nat)) (d : Int),
      currentStreak idx d ≤ idx.length) := by
  refine ⟨checkedSum_spec, ?_, ?_, fun idx d => currentStreak_le_length idx d⟩
  · intro idx today h
    rw [commits30_eq] at h ⊢
    rcases checkedSum_spec (windowCounts idx today) with ⟨_, h2⟩ | ⟨h1, _⟩
    · exact h2
    · omega
  · intro stars h
    rcases checkedSum_spec stars with ⟨_, h2⟩ | ⟨h1, _⟩
    · exact h2
    · omega

theorem arithmetic_no_silent_wrap_witness :
    checkedSum (windowCounts (build [(0, 6), (1, 10)]) 1) =
      some (commits30 (build [(0, 6), (1, 10)]) 1) :=
  arithmetic_no_silent_wrap.2.1 (build [(0, 6), (1, 10)]) 1 (by decide)

/-- C7: rendering is total: every bar height lies in `[4, 34]`, so the
unsigned `160 - height` anchoring can never underflow, every bar rect
is produced, and the full badge document is produced for every index,
date and profile numbers. -/
theorem render_total :
    (∀ count : Nat, 4 ≤ barHeight count ∧ barHeight count ≤ 34) ∧
    (∀ i count : Nat, ∃ s, rectBar i (barHeight count) = some s) ∧
    (∀ (idx : List (Int × Nat)) (today : Int)
        (repos stars followers following total_contributions : Nat),
      ∃ s, renderSVG idx today repos stars followers following
        total_contributions = some s) :=
  ⟨fun c => ⟨barHeight_ge c, barHeight_le c⟩,
    fun i c => rectBar_isSome i (barHeight c)
      (le_trans (barHeight_le c) (by omega)),
    renderSVG_total⟩

/-- C8: index construction is last-write-wins: looking up any date in
the built index returns the count of that date's last occurrence in
input order (`0` when absent), silently discarding earlier occurrences;
concretely, building from `[(d, 1), (d, 7)]` stores `7` for `d`. -/
theorem build_last_write_wins :
    (∀ (entries : List (Int × Nat)) (d : Int),
      lookup (build entries) d = lastWriteWins entries d) ∧
    lookup (build [(0, 1), (0, 7)]) 0 = 7 :=
  ⟨lookup_build, by decide⟩

/-- C9: for inputs with pairwise-distinct dates, every computed metric
is invariant under permutation of the input list. -/
theorem metrics_order_independent :
    ∀ (es es' : List (Int × Nat)) (today : Int),
      es.Perm es' → (es.map Prod.fst).Nodup →
      currentStreak (build es) today = currentStreak (build es') today ∧
      longestStreak (build es) = longestStreak (build es') ∧
      active30 (build es) today = active30 (build es') today ∧
      commits30 (build es) today = commits30 (build es') today ∧
      barHeights (build es) today = barHeights (build es') today := by
  intro es es' today hperm hnd
  have hnd' : (es'.map Prod.fst).Nodup :=
    ((hperm.map Prod.fst).nodup_iff).mp hnd
  rw [build_eq_self es hnd, build_eq_self es' hnd']
  have hlk : ∀ x, lookup es x = lookup es' x := lookup_eq_of_perm hperm hnd
  have hwin : windowLoop es today = windowLoop es' today :=
    windowLoop_congr es es' today (fun d _ => hlk d)
  refine ⟨currentStreak_congr es es' today (fun d _ => hlk d),
    longestStreak_eq_of_perm hperm, ?_, ?_, ?_⟩
  · unfold active30
    rw [hwin]
  · unfold commits30
    rw [hwin]
  · unfold barHeights
    rw [hwin]

theorem metrics_order_independent_witness :
    currentStreak (build [(0, 1), (1, 2)]) 1 =
      currentStreak (build [(1, 2), (0, 1)]) 1 :=
  (metrics_order_independent [(0, 1), (1, 2)] [(1, 2), (0, 1)] 1
    (by decide) (by decide)).1

/-- C10: counts stored on dates strictly after `today` never influence
`currentStreak`, `active30`, `commits30` or `barHeights`: two indices
agreeing on every date up to and including `today` produce identical
values for these four metrics. `longestStreak`, by contrast, does see
future dates: the index `{today+1: 1, today+2: 1}` agrees with the
empty index on all dates up to `today = 0` yet has a different longest
streak. -/
theorem future_dates_irrelevant :
    (∀ (idx idx' : List (Int × Nat)) (today : Int),
      (∀ d : Int, d ≤ today → lookup idx d = lookup idx' d) →
      currentStreak idx today = currentStreak idx' today ∧
      active30 idx today = active30 idx' today ∧
      commits30 idx today = commits30 idx' today ∧
      barHeights idx today = barHeights idx' today) ∧
    (∀ d : Int, d ≤ 0 →
      lookup (build [(1, 1), (2, 1)]) d = lookup ([] : List (Int × Nat)) d) ∧
    longestStreak (build [(1, 1), (2, 1)]) ≠
      longestStreak ([] : List (Int × Nat)) := by
  refine ⟨?_, ?_, by decide⟩
  · intro idx idx' today h
    have hwin := windowLoop_congr idx idx' today h
    refine ⟨currentStreak_congr idx idx' today h, ?_, ?_, ?_⟩
    · unfold active30
      rw [hwin]
    · unfold commits30
      rw [hwin]
    · unfold barHeights
      rw [hwin]
  · intro d hd
    show lookup [((1 : Int), (1 : Nat)), (2, 1)] d = lookup [] d
    rw [lookup_cons, if_neg (by omega), lookup_cons, if_neg (by omega)]

theorem future_dates_irrelevant_witness :
    currentStreak (build [(1, 1), (2, 1)]) 0 =
      currentStreak ([] : List (Int × Nat)) 0 :=
  (future_dates_irrelevant.1 (build [(1, 1), (2, 1)]) [] 0
    future_dates_irrelevant.2.1).1

end StreakWidget
